import Mathlib

/-!
Formal model of the tensor-manipulation and hybridization behaviour exercised by
the notebooks of this repository (`pytorch/chapter_preliminaries/ndarray.ipynb`
and the compilers-and-interpreters notebook).  The repository itself only calls
an external numerical library, so the operations below are modelled from the
spec's descriptions of those calls; integer-valued tensors are represented as
lists of integers in row-major order.
-/

namespace D2L

/-! Basic list access lemmas used throughout the development. -/

theorem getD_cons_succ {α : Type _} (a : α) (t : List α) (n : Nat) (d : α) :
    (a :: t).getD (n + 1) d = t.getD n d := rfl

theorem getD_cons_zero {α : Type _} (a : α) (t : List α) (d : α) :
    (a :: t).getD 0 d = a := rfl

theorem getD_append_left {α : Type _} (xs ys : List α) (i : Nat) (d : α)
    (h : i < xs.length) : (xs ++ ys).getD i d = xs.getD i d := by
  induction xs generalizing i with
  | nil => simp at h
  | cons a t ih =>
    cases i with
    | zero => rfl
    | succ n =>
      have hn : n < t.length := by simpa using h
      simpa [getD_cons_succ] using ih n hn

theorem getD_append_right {α : Type _} (xs ys : List α) (i : Nat) (d : α)
    (h : xs.length ≤ i) : (xs ++ ys).getD i d = ys.getD (i - xs.length) d := by
  induction xs generalizing i with
  | nil => simp
  | cons a t ih =>
    cases i with
    | zero => simp at h
    | succ n =>
      have hn : t.length ≤ n := by simpa using h
      simpa [getD_cons_succ, Nat.succ_sub_succ] using ih n hn

theorem getD_replicate {α : Type _} (n i : Nat) (a d : α) (h : i < n) :
    (List.replicate n a).getD i d = a := by
  induction n generalizing i with
  | zero => omega
  | succ m ih =>
    cases i with
    | zero => rfl
    | succ k =>
      have hk : k < m := by omega
      simpa [List.replicate_succ, getD_cons_succ] using ih k hk

theorem getD_map {α β : Type _} (f : α → β) (xs : List α) (i : Nat) (d : α)
    (e : β) (h : i < xs.length) : (xs.map f).getD i e = f (xs.getD i d) := by
  induction xs generalizing i with
  | nil => simp at h
  | cons a t ih =>
    cases i with
    | zero => rfl
    | succ n =>
      have hn : n < t.length := by simpa using h
      simpa [getD_cons_succ] using ih n hn

theorem getD_zipWith {α β γ : Type _} (f : α → β → γ) (xs : List α)
    (ys : List β) (i : Nat) (da : α) (db : β) (dc : γ)
    (hx : i < xs.length) (hy : i < ys.length) :
    (List.zipWith f xs ys).getD i dc = f (xs.getD i da) (ys.getD i db) := by
  induction xs generalizing ys i with
  | nil => simp at hx
  | cons a t ih =>
    cases ys with
    | nil => simp at hy
    | cons b u =>
      cases i with
      | zero => rfl
      | succ n =>
        have hn : n < t.length := by simpa using hx
        have hm : n < u.length := by simpa using hy
        simpa [getD_cons_succ] using ih u n hn hm

theorem getD_set_self {α : Type _} (xs : List α) (i : Nat) (v d : α)
    (h : i < xs.length) : (xs.set i v).getD i d = v := by
  induction xs generalizing i with
  | nil => simp at h
  | cons a t ih =>
    cases i with
    | zero => rfl
    | succ n =>
      have hn : n < t.length := by simpa using h
      simpa [getD_cons_succ] using ih n hn

theorem getD_set_ne {α : Type _} (xs : List α) (i j : Nat) (v d : α)
    (h : j ≠ i) : (xs.set i v).getD j d = xs.getD j d := by
  induction xs generalizing i j with
  | nil => simp
  | cons a t ih =>
    cases i with
    | zero =>
      cases j with
      | zero => omega
      | succ m => rfl
    | succ n =>
      cases j with
      | zero => rfl
      | succ m =>
        have hm : m ≠ n := by omega
        simpa [getD_cons_succ] using ih n m hm

/-! The tensor model.  A vector is a list of integers; a matrix is a list of
rows.  All the notebook examples use vectors and matrices. -/

/-- Modelled from the spec: `arange(n)` creates a vector of evenly spaced
values starting at 0 (included) and ending at `n` (not included), with
interval size 1. -/
def arange (n : Nat) : List Int := (List.range n).map Int.ofNat

/-- Modelled from the spec: `numel` is the total number of elements. -/
def numel (x : List Int) : Nat := x.length

/-- Modelled from the spec: the `shape` of a vector is the one-element size. -/
def vshape (x : List Int) : List Nat := [x.length]

/-- Matrices as lists of rows (row-major layout). -/
abbrev Matrix := List (List Int)

/-- Element of a matrix at row `i`, column `j` (0 out of bounds). -/
def entry (A : Matrix) (i j : Nat) : Int := (A.getD i []).getD j 0

/-- Cut a flat row-major list into `h` rows of width `w`. -/
def chunkRows : Nat → Nat → List Int → Matrix
  | 0, _, _ => []
  | h + 1, w, xs => xs.take w :: chunkRows h w (xs.drop w)

/-- Modelled from the spec: `reshape` to shape `(h, w)` changes the shape of a
tensor without altering its size or values; the elements are laid out one row
at a time (row-major). -/
def reshape2 (x : List Int) (h w : Nat) : Option Matrix :=
  if x.length = h * w then some (chunkRows h w x) else none

/-- Modelled from the spec: a `-1` shape component passed to `reshape` is
inferred automatically as the size divided by the product of the remaining
components. -/
def reshapeInfer2 (x : List Int) (a b : Int) : Option Matrix :=
  if a = -1 then
    if 0 < b ∧ b.toNat ∣ x.length then
      reshape2 x (x.length / b.toNat) b.toNat
    else none
  else if b = -1 then
    if 0 < a ∧ a.toNat ∣ x.length then
      reshape2 x a.toNat (x.length / a.toNat)
    else none
  else if 0 ≤ a ∧ 0 ≤ b then reshape2 x a.toNat b.toNat
  else none

/-! Claims about creation and reshaping. -/

/-- Claim C8: `arange(n)` returns a one-dimensional tensor of exactly the `n`
evenly spaced values `0, 1, ..., n-1` (0 included, `n` excluded, step 1); its
`numel` is `n` and its shape is the one-element size `(n,)`; in particular
`x = arange 12` has elements 0 through 11, `numel x = 12` and shape `[12]`. -/
theorem arange_spec (n i : Nat) (hi : i < n) :
    numel (arange n) = n ∧ vshape (arange n) = [n] ∧
    (arange n).getD i 0 = Int.ofNat i ∧
    arange 12 = [0, 1, 2, 3, 4, 5, 6, 7, 8, 9, 10, 11] := by
  refine ⟨by simp [numel, arange], by simp [vshape, arange], ?_, by decide⟩
  have hlen : i < (List.range n).length := by simpa using hi
  have := getD_map Int.ofNat (List.range n) i 0 0 hlen
  rw [arange, this, List.getD_eq_getElem?_getD, List.getElem?_range hi]
  rfl

/-- Claim C8 witness: the concrete instance `n = 12`, `i = 3`. -/
theorem arange_spec_witness :
    numel (arange 12) = 12 ∧ vshape (arange 12) = [12] ∧
    (arange 12).getD 3 0 = Int.ofNat 3 ∧
    arange 12 = [0, 1, 2, 3, 4, 5, 6, 7, 8, 9, 10, 11] :=
  arange_spec 12 3 (by decide)

/-- Claim C1: evaluating the notebook's reshape example.  For
`x = arange 12`, `x.reshape(3, 4)` is the matrix with rows
`[0,1,2,3]`, `[4,5,6,7]`, `[8,9,10,11]`, its flattening in row-major order is
`x` itself (same elements, same order, same count), and `x[3] = X[0,3]`;
in particular the result is not the all-12 matrix recorded as that cell's
output in the notebook. -/
theorem reshape_arange12_eval :
    reshape2 (arange 12) 3 4 =
      some [[0, 1, 2, 3], [4, 5, 6, 7], [8, 9, 10, 11]] ∧
    List.flatten [[(0 : Int), 1, 2, 3], [4, 5, 6, 7], [8, 9, 10, 11]] =
      arange 12 ∧
    numel (List.flatten [[(0 : Int), 1, 2, 3], [4, 5, 6, 7], [8, 9, 10, 11]]) =
      numel (arange 12) ∧
    (arange 12).getD 3 0 =
      entry [[0, 1, 2, 3], [4, 5, 6, 7], [8, 9, 10, 11]] 0 3 ∧
    reshape2 (arange 12) 3 4 ≠
      some [[12, 12, 12, 12], [12, 12, 12, 12], [12, 12, 12, 12]] := by
  refine ⟨by decide, by decide, by decide, by decide, by decide⟩

/-- Claim C9: a `-1` shape component is inferred as the total element count
divided by the product of the other components: whenever the size factors as
`h * w` (both positive), `x.reshape(-1, w)`, `x.reshape(h, -1)` and
`x.reshape(h, w)` all return the same matrix. -/
theorem reshape_infer_spec (x : List Int) (h w : Nat)
    (hh : 0 < h) (hw : 0 < w) (hn : x.length = h * w) :
    reshapeInfer2 x (-1) (w : Int) = reshape2 x h w ∧
    reshapeInfer2 x (h : Int) (-1) = reshape2 x h w ∧
    reshapeInfer2 x (h : Int) (w : Int) = reshape2 x h w := by
  have hdw : w ∣ x.length := ⟨h, by rw [hn, Nat.mul_comm]⟩
  have hdh : h ∣ x.length := ⟨w, hn⟩
  have hqw : x.length / w = h := by
    rw [hn, Nat.mul_div_cancel _ hw]
  have hqh : x.length / h = w := by
    rw [hn, Nat.mul_comm, Nat.mul_div_cancel _ hh]
  refine ⟨?_, ?_, ?_⟩
  · have hb : (0 : Int) < (w : Int) := by exact_mod_cast hw
    have hcond : (0 : Int) < (w : Int) ∧ w ∣ x.length := ⟨hb, hdw⟩
    simp only [reshapeInfer2, Int.toNat_ofNat]
    rw [if_pos trivial, if_pos hcond, hqw]
  · have hne : ¬((h : Int) = -1) := by omega
    have ha : (0 : Int) < (h : Int) := by exact_mod_cast hh
    have hcond : (0 : Int) < (h : Int) ∧ h ∣ x.length := ⟨ha, hdh⟩
    simp only [reshapeInfer2, Int.toNat_ofNat]
    rw [if_pos trivial, if_pos hcond, hqh, if_neg hne]
  · have hne : ((h : Int) = -1) = False := by
      simp only [eq_iff_iff, iff_false]
      omega
    have hne' : ((w : Int) = -1) = False := by
      simp only [eq_iff_iff, iff_false]
      omega
    have hpos : (0 : Int) ≤ (h : Int) ∧ (0 : Int) ≤ (w : Int) :=
      ⟨Int.ofNat_nonneg h, Int.ofNat_nonneg w⟩
    simp only [reshapeInfer2, hne, hne', if_false, if_pos hpos,
      Int.toNat_ofNat]

/-- Claim C9 witness: the 12-element vector reshaped as `(-1, 4)`, `(3, -1)`
and `(3, 4)`. -/
theorem reshape_infer_spec_witness :
    reshapeInfer2 (arange 12) (-1) 4 = reshape2 (arange 12) 3 4 ∧
    reshapeInfer2 (arange 12) 3 (-1) = reshape2 (arange 12) 3 4 ∧
    reshapeInfer2 (arange 12) 3 4 = reshape2 (arange 12) 3 4 :=
  reshape_infer_spec (arange 12) 3 4 (by decide) (by decide) (by decide)

/-! Concatenation (claim C3). -/

/-- Well-formedness: a matrix with `h` rows, each of width `w`. -/
def wellFormed (A : Matrix) (h w : Nat) : Prop :=
  A.length = h ∧ ∀ r ∈ A, r.length = w

instance decWellFormed (A : Matrix) (h w : Nat) : Decidable (wellFormed A h w) :=
  inferInstanceAs (Decidable (A.length = h ∧ ∀ r ∈ A, r.length = w))

theorem getD_mem {α : Type _} (xs : List α) (i : Nat) (d : α)
    (h : i < xs.length) : xs.getD i d ∈ xs := by
  induction xs generalizing i with
  | nil => simp at h
  | cons a t ih =>
    cases i with
    | zero => exact List.mem_cons_self _ _
    | succ n => exact List.mem_cons_of_mem _ (ih n (by simpa using h))

theorem wf_row_len {A : Matrix} {h w : Nat} (hA : wellFormed A h w) {i : Nat}
    (hi : i < h) : (A.getD i []).length = w :=
  hA.2 _ (getD_mem A i [] (by rw [hA.1]; exact hi))

/-- Modelled from the spec: `cat((X, Y), dim=0)` stacks the rows of `X`
followed by the rows of `Y`. -/
def cat0 (A B : Matrix) : Matrix := A ++ B

/-- Modelled from the spec: `cat((X, Y), dim=1)` appends corresponding rows of
`X` and `Y`. -/
def cat1 (A B : Matrix) : Matrix := List.zipWith (· ++ ·) A B

theorem cat1_rows : ∀ (A B : Matrix) (w1 w2 : Nat),
    (∀ r ∈ A, r.length = w1) → (∀ r ∈ B, r.length = w2) →
    ∀ r ∈ cat1 A B, r.length = w1 + w2 := by
  intro A
  induction A with
  | nil => intro B w1 w2 _ _ r hr; simp [cat1] at hr
  | cons a t ih =>
    intro B w1 w2 hA hB r hr
    cases B with
    | nil => simp [cat1] at hr
    | cons b u =>
      simp only [cat1, List.zipWith_cons_cons] at hr
      rcases List.mem_cons.1 hr with hcase | hcase
      · subst hcase
        simp [hA a (by simp), hB b (by simp)]
      · exact ih u w1 w2 (fun r hr => hA r (List.mem_cons_of_mem _ hr))
          (fun r hr => hB r (List.mem_cons_of_mem _ hr)) r hcase

/-- Claim C3: concatenation sums sizes along the chosen axis.  For matrices
whose shapes agree off the concatenation axis, `cat` along axis 0 yields
`h1 + h2` rows of unchanged width with the entries of `X` followed by those of
`Y`, and `cat` along axis 1 yields rows of width `w1 + w2` with unchanged row
count; entries are `X`'s entries followed by `Y`'s along the chosen axis. -/
theorem cat_spec (A B : Matrix) (h1 h2 w h w1 w2 i j : Nat) :
    (wellFormed A h1 w → wellFormed B h2 w →
      wellFormed (cat0 A B) (h1 + h2) w ∧
      (i < h1 + h2 → j < w →
        entry (cat0 A B) i j =
          if i < h1 then entry A i j else entry B (i - h1) j)) ∧
    (wellFormed A h w1 → wellFormed B h w2 →
      wellFormed (cat1 A B) h (w1 + w2) ∧
      (i < h → j < w1 + w2 →
        entry (cat1 A B) i j =
          if j < w1 then entry A i j else entry B i (j - w1))) := by
  constructor
  · intro hA hB
    constructor
    · refine ⟨by simp [cat0, hA.1, hB.1], ?_⟩
      intro r hr
      rcases List.mem_append.1 hr with hc | hc
      · exact hA.2 r hc
      · exact hB.2 r hc
    · intro _ _
      unfold entry cat0
      by_cases hlt : i < h1
      · rw [if_pos hlt, getD_append_left _ _ _ _ (by rw [hA.1]; exact hlt)]
      · rw [if_neg hlt,
          getD_append_right _ _ _ _ (by rw [hA.1]; omega), hA.1]
  · intro hA hB
    constructor
    · refine ⟨?_, cat1_rows A B w1 w2 hA.2 hB.2⟩
      simp [cat1, hA.1, hB.1]
    · intro hi _
      unfold entry cat1
      have hiA : i < A.length := by rw [hA.1]; exact hi
      have hiB : i < B.length := by rw [hB.1]; exact hi
      rw [getD_zipWith (· ++ ·) A B i [] [] [] hiA hiB]
      have hwa : (A.getD i []).length = w1 := wf_row_len hA hi
      by_cases hlt : j < w1
      · rw [if_pos hlt, getD_append_left _ _ _ _ (by rw [hwa]; exact hlt)]
      · rw [if_neg hlt,
          getD_append_right _ _ _ _ (by rw [hwa]; omega), hwa]

/-- The first operand of the notebook's `cat` example (`arange(12)` reshaped
to 3 by 4). -/
def catX : Matrix := [[0, 1, 2, 3], [4, 5, 6, 7], [8, 9, 10, 11]]

/-- The second operand of the notebook's `cat` example. -/
def catY : Matrix := [[2, 1, 4, 3], [1, 2, 3, 4], [4, 3, 2, 1]]

/-- Claim C3 witness: for the two 3x4 matrices of the notebook, `cat` gives a
6x4 result along axis 0 and a 3x8 result along axis 1, with the entries of
`X` followed by the entries of `Y`. -/
theorem cat_spec_witness :
    wellFormed (cat0 catX catY) 6 4 ∧ entry (cat0 catX catY) 4 2 = 3 ∧
    wellFormed (cat1 catX catY) 3 8 ∧ entry (cat1 catX catY) 1 6 = 3 := by
  have h0 := (cat_spec catX catY 3 3 4 3 4 4 4 2).1 (by decide) (by decide)
  have h1 := (cat_spec catX catY 3 3 4 3 4 4 1 6).2 (by decide) (by decide)
  refine ⟨h0.1, ?_, h1.1, ?_⟩
  · rw [h0.2 (by decide) (by decide)]; decide
  · rw [h1.2 (by decide) (by decide)]; decide

/-! Indexed and sliced assignment (claim C10). -/

/-- Modelled from the spec: writing an element by specifying its indices,
`X[i, j] = v`. -/
def setEntry (A : Matrix) (i j : Nat) (v : Int) : Matrix :=
  A.set i ((A.getD i []).set j v)

/-- Modelled from the spec: sliced assignment `X[:k, :] = c` writes `c` into
every element of the first `k` rows and leaves the remaining rows alone (the
notebook's `X[:-1, :] = 4` is the case `k = X.length - 1`). -/
def fillPrefixRows : Matrix → Nat → Int → Matrix
  | [], _, _ => []
  | A, 0, _ => A
  | r :: rs, k + 1, c => r.map (fun _ => c) :: fillPrefixRows rs k c

theorem set_of_length_le {α : Type _} (xs : List α) (i : Nat) (v : α)
    (h : xs.length ≤ i) : xs.set i v = xs := by
  induction xs generalizing i with
  | nil => rfl
  | cons a t ih =>
    cases i with
    | zero => simp at h
    | succ n => simpa using ih n (by simpa using h)

theorem fillPrefixRows_getD_of_ge (A : Matrix) (k : Nat) (c : Int) (r : Nat)
    (h : k ≤ r) : (fillPrefixRows A k c).getD r [] = A.getD r [] := by
  induction A generalizing k r with
  | nil => simp [fillPrefixRows]
  | cons a t ih =>
    cases k with
    | zero => rfl
    | succ m =>
      cases r with
      | zero => omega
      | succ n =>
        simpa [fillPrefixRows, getD_cons_succ] using ih m n (by omega)

theorem fillPrefixRows_entry_of_lt (A : Matrix) (k : Nat) (c : Int)
    (p q : Nat) (hp : p < k) (hpb : p < A.length)
    (hq : q < (A.getD p []).length) :
    entry (fillPrefixRows A k c) p q = c := by
  induction A generalizing k p with
  | nil => simp at hpb
  | cons a t ih =>
    cases k with
    | zero => omega
    | succ m =>
      cases p with
      | zero =>
        have hqa : q < a.length := by simpa using hq
        simp only [fillPrefixRows, entry, getD_cons_zero]
        rw [getD_map (fun _ => c) a q 0 0 hqa]
      | succ n =>
        have hn : n < t.length := by simpa using hpb
        have hq' : q < (t.getD n []).length := by
          simpa [getD_cons_succ] using hq
        simpa [fillPrefixRows, entry, getD_cons_succ] using
          ih m n (by omega) hn hq'

/-- Claim C10: indexed and sliced assignment modifies only the selected
elements.  After `X[i, j] = v` the selected entry is `v` and every entry at a
position other than `(i, j)` keeps its previous value; after `X[:k, :] = c`
every element of the selected rows becomes `c` while every row outside the
slice keeps its previous values. -/
theorem slice_assign_frame_spec (A : Matrix) (i j : Nat) (v : Int)
    (i' j' : Nat) (k : Nat) (c : Int) (p q r : Nat)
    (hne : i' ≠ i ∨ j' ≠ j)
    (hi : i < A.length) (hj : j < (A.getD i []).length)
    (hp : p < k) (hpb : p < A.length) (hq : q < (A.getD p []).length)
    (hr : k ≤ r) :
    entry (setEntry A i j v) i j = v ∧
    entry (setEntry A i j v) i' j' = entry A i' j' ∧
    entry (fillPrefixRows A k c) p q = c ∧
    (fillPrefixRows A k c).getD r [] = A.getD r [] := by
  refine ⟨?_, ?_, fillPrefixRows_entry_of_lt A k c p q hp hpb hq,
    fillPrefixRows_getD_of_ge A k c r hr⟩
  · unfold entry setEntry
    rw [getD_set_self _ _ _ _ hi, getD_set_self _ _ _ _ hj]
  · unfold entry setEntry
    by_cases hii : i' = i
    · subst hii
      have hjj : j' ≠ j := hne.resolve_left (by simp)
      rw [getD_set_self _ _ _ _ hi, getD_set_ne _ _ _ _ _ hjj]
    · rw [getD_set_ne _ _ _ _ _ hii]

/-- The state of the notebook's matrix `X` just before `X[1, 2] = 17`. -/
def sliceX0 : Matrix := [[0, 1, 2, 3], [4, 5, 6, 7], [8, 9, 10, 11]]

/-- The state of the notebook's matrix `X` just before `X[:-1, :] = 4`. -/
def sliceX1 : Matrix := [[0, 1, 2, 3], [4, 5, 17, 7], [8, 9, 10, 11]]

/-- Claim C10 witness: the notebook's two assignments.  `X[1, 2] = 17` sets
entry `(1, 2)` and leaves `(2, 2)` unchanged; `X[:-1, :] = 4` (two of three
rows selected) sets entry `(0, 1)` to 4 and leaves the last row unchanged. -/
theorem slice_assign_frame_spec_witness :
    entry (setEntry sliceX0 1 2 17) 1 2 = 17 ∧
    entry (setEntry sliceX0 1 2 17) 2 2 = 10 ∧
    entry (fillPrefixRows sliceX1 2 4) 0 1 = 4 ∧
    (fillPrefixRows sliceX1 2 4).getD 2 [] = [8, 9, 10, 11] := by
  have h1 := slice_assign_frame_spec sliceX0 1 2 17 2 2 2 4 0 1 2
    (Or.inl (by decide)) (by decide) (by decide) (by decide) (by decide)
    (by decide) (by decide)
  have h2 := slice_assign_frame_spec sliceX1 1 2 17 2 2 2 4 0 1 2
    (Or.inl (by decide)) (by decide) (by decide) (by decide) (by decide)
    (by decide) (by decide)
  refine ⟨h1.1, ?_, h2.2.2.1, ?_⟩
  · rw [h1.2.1]; decide
  · rw [h2.2.2.2]; decide

/-! Broadcasting (claim C2). -/

/-- Modelled from the spec: two axis lengths combine under broadcasting when
they are equal or one of them is 1; the union length is the other one. -/
def bdim (m n : Nat) : Option Nat :=
  if m = n then some m
  else if m = 1 then some n
  else if n = 1 then some m
  else none

/-- Length along axis 0. -/
def nrows (A : Matrix) : Nat := A.length

/-- Length along axis 1 (read off the first row). -/
def ncols (A : Matrix) : Nat := (A.getD 0 []).length

/-- Modelled from the spec, broadcasting step (i): expand an array by copying
elements along its length-1 axes so that it reaches the shape `(r, c)`. -/
def expandTo (r c : Nat) (A : Matrix) : Matrix :=
  (if A.length = 1 then List.replicate r (A.getD 0 []) else A).map
    (fun row => if row.length = 1 then List.replicate c (row.getD 0 0) else row)

/-- Elementwise sum of two identically-shaped matrices. -/
def addAligned (A B : Matrix) : Matrix :=
  List.zipWith (fun ra rb => List.zipWith (· + ·) ra rb) A B

/-- Modelled from the spec: broadcasting works by (i) expanding one or both
arrays by copying elements along axes with length 1 so that, after the
transformation, the two tensors have the same (union) shape, and then (ii)
performing the elementwise operation on the resulting arrays; when no common
shape exists the operation fails. -/
def broadcastAdd (A B : Matrix) : Option Matrix :=
  match bdim (nrows A) (nrows B), bdim (ncols A) (ncols B) with
  | some r, some c => some (addAligned (expandTo r c A) (expandTo r c B))
  | _, _ => none

theorem bdim_char (m n k : Nat) (h : bdim m n = some k) :
    (m = 1 ∨ m = k) ∧ (n = 1 ∨ n = k) := by
  unfold bdim at h
  split_ifs at h with h1 h2 h3 <;> simp_all

theorem expandTo_wf (A : Matrix) (ra ca r c : Nat) (hA : wellFormed A ra ca)
    (hra : 0 < ra) (hr : ra = 1 ∨ ra = r) (hc : ca = 1 ∨ ca = c) :
    wellFormed (expandTo r c A) r c := by
  have hrowsA : ∀ row ∈ (if A.length = 1 then
      List.replicate r (A.getD 0 []) else A), row.length = ca := by
    intro row hrow
    split_ifs at hrow with hone
    · rw [List.eq_of_mem_replicate hrow]
      exact wf_row_len hA hra
    · exact hA.2 row hrow
  constructor
  · rw [expandTo, List.length_map]
    split_ifs with hone
    · exact List.length_replicate _ _
    · rw [hA.1] at hone ⊢
      rcases hr with hr | hr
      · exact absurd (hA.1 ▸ hr) (hA.1 ▸ hone)
      · exact hr
  · intro row hrow
    rw [expandTo] at hrow
    obtain ⟨row0, hrow0, hmap⟩ := List.mem_map.1 hrow
    have hlen0 : row0.length = ca := hrowsA row0 hrow0
    subst hmap
    split_ifs with hone
    · exact List.length_replicate _ _
    · rw [hlen0] at hone ⊢
      rcases hc with hc | hc
      · exact absurd hc hone
      · exact hc

theorem expandTo_entry (A : Matrix) (ra ca r c : Nat) (hA : wellFormed A ra ca)
    (hra : 0 < ra) (hca : 0 < ca) (hr : ra = 1 ∨ ra = r) (hc : ca = 1 ∨ ca = c)
    (i j : Nat) (hi : i < r) (hj : j < c) :
    entry (expandTo r c A) i j =
      entry A (if ra = 1 then 0 else i) (if ca = 1 then 0 else j) := by
  have hlenA : (if A.length = 1 then
      List.replicate r (A.getD 0 []) else A).length = r := by
    split_ifs with hone
    · exact List.length_replicate _ _
    · rw [hA.1] at hone ⊢
      rcases hr with hr | hr
      · exact absurd hr hone
      · exact hr
  unfold entry expandTo
  rw [getD_map _ _ i [] [] (by rw [hlenA]; exact hi)]
  have hrowsel : (if A.length = 1 then
        List.replicate r (A.getD 0 []) else A).getD i [] =
      A.getD (if ra = 1 then 0 else i) [] := by
    rw [hA.1]
    split_ifs with hone
    · exact getD_replicate _ _ _ _ hi
    · rfl
  rw [hrowsel]
  set i' := if ra = 1 then 0 else i with hi'
  have hi'lt : i' < ra := by
    rw [hi']
    split_ifs with hone
    · exact hone ▸ Nat.zero_lt_one
    · rcases hr with hr | hr
      · exact absurd hr hone
      · exact hr ▸ hi
  have hrowlen : (A.getD i' []).length = ca := wf_row_len hA hi'lt
  rw [hrowlen]
  split_ifs with hone
  · rw [getD_replicate _ _ _ _ hj]
  · rcases hc with hc | hc
    · exact absurd hc hone
    · rfl

theorem addAligned_rows : ∀ (A B : Matrix) (c : Nat),
    (∀ r ∈ A, r.length = c) → (∀ r ∈ B, r.length = c) →
    ∀ r ∈ addAligned A B, r.length = c := by
  intro A
  induction A with
  | nil => intro B c _ _ r hr; simp [addAligned] at hr
  | cons a t ih =>
    intro B c hA hB r hr
    cases B with
    | nil => simp [addAligned] at hr
    | cons b u =>
      simp only [addAligned, List.zipWith_cons_cons] at hr
      rcases List.mem_cons.1 hr with hcase | hcase
      · subst hcase
        simp [hA a (by simp), hB b (by simp)]
      · exact ih u c (fun r hr => hA r (List.mem_cons_of_mem _ hr))
          (fun r hr => hB r (List.mem_cons_of_mem _ hr)) r hcase

theorem addAligned_wf (A B : Matrix) (r c : Nat) (hA : wellFormed A r c)
    (hB : wellFormed B r c) : wellFormed (addAligned A B) r c :=
  ⟨by simp [addAligned, hA.1, hB.1], addAligned_rows A B c hA.2 hB.2⟩

theorem addAligned_entry (A B : Matrix) (r c : Nat) (hA : wellFormed A r c)
    (hB : wellFormed B r c) (i j : Nat) (hi : i < r) (hj : j < c) :
    entry (addAligned A B) i j = entry A i j + entry B i j := by
  unfold entry addAligned
  rw [getD_zipWith _ A B i [] [] []
    (by rw [hA.1]; exact hi) (by rw [hB.1]; exact hi)]
  rw [getD_zipWith (· + ·) _ _ j 0 0 0
    (by rw [wf_row_len hA hi]; exact hj) (by rw [wf_row_len hB hi]; exact hj)]

/-- Claim C2 counterexample: in the notebook cell, `a = arange(3).reshape((3, 1))`
and `b = arange(6).reshape((2, 3))`; along axis 0 the lengths 3 and 2 are
neither equal nor is one of them 1, so no union shape exists and the sum
`a + b` does not succeed. -/
theorem broadcast_arange_counterexample :
    reshape2 (arange 3) 3 1 = some [[0], [1], [2]] ∧
    reshape2 (arange 6) 2 3 = some [[0, 1, 2], [3, 4, 5]] ∧
    bdim 3 2 = none ∧
    broadcastAdd [[0], [1], [2]] [[0, 1, 2], [3, 4, 5]] = none := by decide

/-- Claim C2 (amended): for two matrices whose shapes are compatible (along
each axis the lengths are equal or one of them is 1), the elementwise sum
succeeds: each operand is expanded by copying elements along its length-1 axes
to the common (union) shape and the sum is applied elementwise, so entry
`(i, j)` of the result adds the entries of the operands with a length-1 axis
index collapsed to 0.  (The notebook's particular `a + b`, with shapes
`(3, 1)` and `(2, 3)`, is not such a pair and does not succeed.) -/
theorem broadcast_spec (A B : Matrix) (ra ca rb cb r c i j : Nat)
    (hA : wellFormed A ra ca) (hB : wellFormed B rb cb)
    (hra : 0 < ra) (hca : 0 < ca) (hrb : 0 < rb) (hcb : 0 < cb)
    (hr : bdim ra rb = some r) (hc : bdim ca cb = some c)
    (hi : i < r) (hj : j < c) :
    ∃ C, broadcastAdd A B = some C ∧ wellFormed C r c ∧
      entry C i j =
        entry A (if ra = 1 then 0 else i) (if ca = 1 then 0 else j) +
        entry B (if rb = 1 then 0 else i) (if cb = 1 then 0 else j) := by
  have hnrA : nrows A = ra := hA.1
  have hnrB : nrows B = rb := hB.1
  have hncA : ncols A = ca := wf_row_len hA hra
  have hncB : ncols B = cb := wf_row_len hB hrb
  have hAr := (bdim_char ra rb r hr).1
  have hBr := (bdim_char ra rb r hr).2
  have hAc := (bdim_char ca cb c hc).1
  have hBc := (bdim_char ca cb c hc).2
  have hwfA : wellFormed (expandTo r c A) r c :=
    expandTo_wf A ra ca r c hA hra hAr hAc
  have hwfB : wellFormed (expandTo r c B) r c :=
    expandTo_wf B rb cb r c hB hrb hBr hBc
  refine ⟨addAligned (expandTo r c A) (expandTo r c B), ?_, ?_, ?_⟩
  · rw [broadcastAdd, hnrA, hnrB, hncA, hncB, hr, hc]
  · exact addAligned_wf _ _ r c hwfA hwfB
  · rw [addAligned_entry _ _ r c hwfA hwfB i j hi hj,
      expandTo_entry A ra ca r c hA hra hca hAr hAc i j hi hj,
      expandTo_entry B rb cb r c hB hrb hcb hBr hBc i j hi hj]

/-- Claim C2 witness: for `a = [[0], [1], [2]]` (shape `(3, 1)`) and a second
operand `[[0, 1]]` of shape `(1, 2)` — the compatible shapes the surrounding
notebook text describes — the broadcast sum succeeds, has the union shape
`(3, 2)` and replicates the operands, giving `[[0, 1], [1, 2], [2, 3]]`. -/
theorem broadcast_spec_witness :
    (∃ C, broadcastAdd [[0], [1], [2]] [[0, 1]] = some C ∧
      wellFormed C 3 2 ∧
      entry C 2 1 = entry [[0], [1], [2]] 2 0 + entry [[0, 1]] 0 1) ∧
    broadcastAdd [[0], [1], [2]] [[0, 1]] =
      some [[0, 1], [1, 2], [2, 3]] := by
  constructor
  · have h := broadcast_spec [[0], [1], [2]] [[0, 1]] 3 1 1 2 3 2 2 1
      (by decide) (by decide) (by decide) (by decide) (by decide) (by decide)
      (by decide) (by decide) (by decide) (by decide)
    simpa using h
  · decide

/-! Memory semantics of assignment (claim C6).  Modelled from the spec:
running an operation allocates new memory to host its result and plain
assignment rebinds the name to that new location, while in-place update
(slice assignment or `+=`) writes into the existing allocation; `id(x)` is
the address of the object `x` references. -/

/-- A heap address. -/
abbrev Addr := Nat

/-- The interpreter state: a growing heap of tensor objects and an
environment binding variable names to addresses. -/
structure PyState where
  heap : List Matrix
  env : List (String × Addr)

def lookupVar : List (String × Addr) → String → Option Addr
  | [], _ => none
  | (y, a) :: t, x => if y = x then some a else lookupVar t x

def envSet : List (String × Addr) → String → Addr → List (String × Addr)
  | [], x, a => [(x, a)]
  | (y, b) :: t, x, a => if y = x then (x, a) :: t else (y, b) :: envSet t x a

theorem lookupVar_envSet_self (e : List (String × Addr)) (x : String)
    (a : Addr) : lookupVar (envSet e x a) x = some a := by
  induction e with
  | nil => simp [envSet, lookupVar]
  | cons p t ih =>
    by_cases hx : p.1 = x
    · simp [envSet, hx, lookupVar]
    · simp [envSet, hx, lookupVar, ih]

/-- Modelled from the spec: `id(x)`, the exact address of the object the
variable references. -/
def idOf (s : PyState) (x : String) : Option Addr := lookupVar s.env x

/-- The value currently referenced by a variable. -/
def valueOf (s : PyState) (x : String) : Matrix :=
  match idOf s x with
  | some a => s.heap.getD a []
  | none => []

/-- Modelled from the spec: plain assignment `x = v` first allocates new
memory for the result and then points `x` at that new location. -/
def assign (s : PyState) (x : String) (v : Matrix) : PyState :=
  { heap := s.heap ++ [v], env := envSet s.env x s.heap.length }

/-- Modelled from the spec: in-place update (`x[:] = v` or `x += v`)
overwrites the existing allocation of `x`, allocating nothing. -/
def assignInPlace (s : PyState) (x : String) (v : Matrix) : PyState :=
  { s with heap := match idOf s x with
      | some a => s.heap.set a v
      | none => s.heap }

/-- Claim C6: in-place update reuses the existing allocation while plain
assignment does not: slice assignment `Z[:] = ...` and the in-place
`X += ...` leave `id(Z)` and `id(X)` unchanged, whereas `Y = Y + X` binds
`Y` to newly allocated memory, so `id(Y)` afterwards differs from its value
before. -/
theorem inplace_id_spec (s : PyState) (x y z : String)
    (vx vy vz : Matrix) (ay : Addr)
    (hy : idOf s y = some ay) (hbound : ay < s.heap.length) :
    idOf (assignInPlace s z vz) z = idOf s z ∧
    idOf (assignInPlace s x vx) x = idOf s x ∧
    idOf (assign s y vy) y = some s.heap.length ∧
    idOf (assign s y vy) y ≠ idOf s y := by
  refine ⟨rfl, rfl, ?_, ?_⟩
  · unfold idOf assign
    exact lookupVar_envSet_self s.env y s.heap.length
  · rw [hy]
    unfold idOf assign
    rw [lookupVar_envSet_self s.env y s.heap.length]
    intro hcontra
    have hlen : s.heap.length = ay := Option.some.inj hcontra
    rw [hlen] at hbound
    exact Nat.lt_irrefl ay hbound

/-- The interpreter state of the notebook memory cells: `X` bound at address
0, `Y` at address 1 and `Z` (zeros like `Y`) at address 2. -/
def memState : PyState :=
  { heap := [[[0, 1, 2, 3], [4, 5, 6, 7], [8, 9, 10, 11]],
             [[2, 1, 4, 3], [1, 2, 3, 4], [4, 3, 2, 1]],
             [[0, 0, 0, 0], [0, 0, 0, 0], [0, 0, 0, 0]]],
    env := [("X", 0), ("Y", 1), ("Z", 2)] }

/-- Claim C6 witness: the notebook's three snippets run on the concrete
state: `Z[:] = X + Y` and `X += Y` keep the addresses of `Z` and `X`, while
`Y = Y + X` rebinds `Y` to the fresh address 3 instead of its old address
1. -/
theorem inplace_id_spec_witness :
    idOf (assignInPlace memState "Z"
      (addAligned (valueOf memState "X") (valueOf memState "Y"))) "Z" =
      idOf memState "Z" ∧
    idOf (assignInPlace memState "X"
      (addAligned (valueOf memState "X") (valueOf memState "Y"))) "X" =
      idOf memState "X" ∧
    idOf (assign memState "Y"
      (addAligned (valueOf memState "Y") (valueOf memState "X"))) "Y" =
      some 3 ∧
    idOf (assign memState "Y"
      (addAligned (valueOf memState "Y") (valueOf memState "X"))) "Y" ≠
      idOf memState "Y" := by
  have h := inplace_id_spec memState "X" "Y" "Z"
    (addAligned (valueOf memState "X") (valueOf memState "Y"))
    (addAligned (valueOf memState "Y") (valueOf memState "X"))
    (addAligned (valueOf memState "X") (valueOf memState "Y"))
    1 (by decide) (by decide)
  exact ⟨h.1, h.2.1, h.2.2.1, h.2.2.2⟩

/-! Hybridization (claims C4, C5, C7).  Modelled from the spec: models are
built from Dense layers as a HybridSequential; by default execution is eager
(imperative); calling `hybridize` switches the execution mode so that the
next forward call compiles the model into a symbolic program, caches it, and
every call from then on runs the cached compiled program. -/

/-- A fully connected (Dense) layer: weight matrix, bias vector, and whether
a relu activation follows. -/
structure DenseLayer where
  weight : Matrix
  bias : List Int
  activation : Bool

/-- Elementwise relu. -/
def reluVec (v : List Int) : List Int := v.map (fun z => max z 0)

/-- Dot product of two vectors. -/
def dotProd (u v : List Int) : Int := (List.zipWith (· * ·) u v).sum

/-- Matrix-vector product. -/
def matVec (W : Matrix) (x : List Int) : List Int :=
  W.map (fun row => dotProd row x)

/-- Applying a Dense layer to a concrete vector. -/
def denseApply (l : DenseLayer) (x : List Int) : List Int :=
  let y := List.zipWith (· + ·) (matVec l.weight x) l.bias
  if l.activation then reluVec y else y

/-- Modelled from the spec: eager (imperative) execution runs the layers in
sequence, each one on the concrete values produced by the previous one. -/
def eagerForward (layers : List DenseLayer) (x : List Int) : List Int :=
  layers.foldl (fun v l => denseApply l v) x

/-- A symbolic program: the form used in symbolic programming, recorded once
the process has been fully defined. -/
inductive Sym where
  | data : Sym
  | dense : DenseLayer → Sym → Sym

/-- Executing a compiled symbolic program on an input. -/
def Sym.eval : Sym → List Int → List Int
  | .data, x => x
  | .dense l s, x => denseApply l (s.eval x)

/-- Modelled from the spec: compiling the model into the form used in
symbolic programming. -/
def compileNet (layers : List DenseLayer) : Sym :=
  layers.foldl (fun s l => Sym.dense l s) Sym.data

/-- Modelled from the spec: a HybridSequential model: its layers, the
compile toggle, and the cached compiled program. -/
structure Net where
  layers : List DenseLayer
  hybridized : Bool
  cached : Option Sym

/-- A freshly built net: eager mode, nothing cached. -/
def mkNet (layers : List DenseLayer) : Net := ⟨layers, false, none⟩

/-- Modelled from the spec: `hybridize` switches the internal execution mode
from eager evaluation to graph execution. -/
def Net.hybridize (n : Net) : Net := { n with hybridized := true }

/-- Modelled from the spec: calling the model.  In eager mode the layers run
imperatively; in hybridized mode the first call compiles and caches the
symbolic program, and every call runs the cached program. -/
def Net.call (n : Net) (x : List Int) : List Int × Net :=
  if n.hybridized then
    match n.cached with
    | some s => (s.eval x, n)
    | none =>
        let s := compileNet n.layers
        (s.eval x, { n with cached := some s })
  else (eagerForward n.layers x, n)

theorem compile_eval (layers : List DenseLayer) (s : Sym) (x : List Int) :
    (layers.foldl (fun s l => Sym.dense l s) s).eval x =
      layers.foldl (fun v l => denseApply l v) (s.eval x) := by
  induction layers generalizing s with
  | nil => rfl
  | cons l t ih =>
    simp only [List.foldl_cons]
    exact ih (Sym.dense l s)

/-- Claim C4: the compile toggle preserves the model's computation result.
For every model and every input, `net(x)` before `hybridize` runs eagerly;
the first `net(x)` after `hybridize` compiles the model and returns the same
value; the next call runs the cached program and returns the same value
again; and calling the once-called net leaves it unchanged, so every
repeated call returns that same value as well. -/
theorem hybridize_preserves_forward (layers : List DenseLayer)
    (x : List Int) :
    ((mkNet layers).call x).1 = eagerForward layers x ∧
    ((mkNet layers).hybridize.call x).1 = ((mkNet layers).call x).1 ∧
    (((mkNet layers).hybridize.call x).2.call x).1 =
      ((mkNet layers).call x).1 ∧
    ((mkNet layers).hybridize.call x).2.call x =
      (((mkNet layers).hybridize.call x).2.call x).2.call x := by
  have heval : (compileNet layers).eval x = eagerForward layers x := by
    unfold compileNet eagerForward
    exact compile_eval layers Sym.data x
  refine ⟨rfl, ?_, ?_, ?_⟩
  · simp [Net.call, mkNet, Net.hybridize, heval, eagerForward]
  · simp [Net.call, mkNet, Net.hybridize, heval, eagerForward]
  · simp [Net.call, mkNet, Net.hybridize]

/-! Serialization (claim C5). -/

/-- A node of the exported computation-graph description: an operation, a
name, and references to input nodes (indices into the node list). -/
structure GNode where
  op : String
  name : String
  inputs : List Nat

/-- The nodes contributed by one Dense layer placed at position `p` of a
graph whose current output node is `last`: two parameter ("null") nodes, a
FullyConnected node consuming the previous output and the parameters, and,
when the layer has an activation, an Activation node consuming the
FullyConnected output. -/
def layerExt (i p last : Nat) (act : Bool) : List GNode :=
  [⟨"null", "dense" ++ toString i ++ "_weight", []⟩,
   ⟨"null", "dense" ++ toString i ++ "_bias", []⟩,
   ⟨"FullyConnected", "dense" ++ toString i ++ "_fwd", [last, p, p + 1]⟩] ++
  (if act then [⟨"Activation", "dense" ++ toString i ++ "_relu", [p + 2]⟩]
   else [])

def addLayerNodes (i : Nat) (l : DenseLayer) (st : List GNode × Nat) :
    List GNode × Nat :=
  (st.1 ++ layerExt i st.1.length st.2 l.activation,
   if l.activation then st.1.length + 3 else st.1.length + 2)

def buildGraphAux : Nat → List DenseLayer → List GNode × Nat →
    List GNode × Nat
  | _, [], st => st
  | i, l :: ls, st => buildGraphAux (i + 1) ls (addLayerNodes i l st)

/-- Modelled from the spec: the JSON description of a compiled model is a
top-level "nodes" array of named operation nodes with input references; the
first node is the "null" node named "data". -/
def symbolGraph (layers : List DenseLayer) : List GNode :=
  (buildGraphAux 0 layers ([⟨"null", "data", []⟩], 0)).1

/-- The parameters of the model, in layer order, as named tensors. -/
def paramsList : Nat → List DenseLayer → List (String × Matrix)
  | _, [] => []
  | i, l :: ls =>
    ("dense" ++ toString i ++ "_weight", l.weight) ::
    ("dense" ++ toString i ++ "_bias", [l.bias]) :: paramsList (i + 1) ls

/-- Modelled from the spec: `export` produces exactly two artifacts: the
binary parameter file `<stem>-0000.params` holding the parameters and the
JSON file `<stem>-symbol.json` describing the computation graph. -/
def exportNet (n : Net) (stem : String) :
    (String × List (String × Matrix)) × (String × List GNode) :=
  ((stem ++ "-0000.params", paramsList 0 n.layers),
   (stem ++ "-symbol.json", symbolGraph n.layers))

/-- Every node's input references point to strictly earlier nodes. -/
def graphWF (g : List GNode) : Prop :=
  ∀ j, j < g.length → ∀ i ∈ (g.getD j ⟨"", "", []⟩).inputs, i < j

theorem graphWF_append (g ext : List GNode) (hg : graphWF g)
    (hext : ∀ k, k < ext.length →
      ∀ i ∈ (ext.getD k ⟨"", "", []⟩).inputs, i < g.length + k) :
    graphWF (g ++ ext) := by
  intro j hj i hi
  by_cases hlt : j < g.length
  · rw [getD_append_left _ _ _ _ hlt] at hi
    exact hg j hlt i hi
  · have hk : j - g.length < ext.length := by
      rw [List.length_append] at hj
      omega
    rw [getD_append_right _ _ _ _ (by omega)] at hi
    have := hext (j - g.length) hk i hi
    omega

theorem layerExt_inputs (i p last : Nat) (act : Bool) (hlast : last < p) :
    ∀ k, k < (layerExt i p last act).length →
      ∀ q ∈ ((layerExt i p last act).getD k ⟨"", "", []⟩).inputs,
        q < p + k := by
  intro k hk q hq
  cases act with
  | false =>
    match k with
    | 0 => simp [layerExt, getD_cons_zero] at hq
    | 1 => simp [layerExt, getD_cons_succ, getD_cons_zero] at hq
    | 2 =>
      simp [layerExt, getD_cons_succ, getD_cons_zero] at hq
      rcases hq with h | h | h <;> omega
    | n + 3 => simp [layerExt] at hk
  | true =>
    match k with
    | 0 => simp [layerExt, getD_cons_zero] at hq
    | 1 => simp [layerExt, getD_cons_succ, getD_cons_zero] at hq
    | 2 =>
      simp [layerExt, getD_cons_succ, getD_cons_zero] at hq
      rcases hq with h | h | h <;> omega
    | 3 =>
      simp [layerExt, getD_cons_succ, getD_cons_zero] at hq
      omega
    | n + 4 => simp [layerExt] at hk

theorem addLayerNodes_invariant (i : Nat) (l : DenseLayer)
    (st : List GNode × Nat) (hwf : graphWF st.1)
    (hlast : st.2 < st.1.length) :
    graphWF (addLayerNodes i l st).1 ∧
    (addLayerNodes i l st).2 < (addLayerNodes i l st).1.length := by
  constructor
  · exact graphWF_append st.1 _ hwf
      (layerExt_inputs i st.1.length st.2 l.activation hlast)
  · unfold addLayerNodes
    simp only [List.length_append]
    cases hact : l.activation <;>
      simp [layerExt, hact]

theorem buildGraphAux_invariant : ∀ (ls : List DenseLayer) (i : Nat)
    (st : List GNode × Nat), graphWF st.1 → st.2 < st.1.length →
    graphWF (buildGraphAux i ls st).1 ∧
    (buildGraphAux i ls st).2 < (buildGraphAux i ls st).1.length := by
  intro ls
  induction ls with
  | nil => intro i st hwf hlast; exact ⟨hwf, hlast⟩
  | cons l t ih =>
    intro i st hwf hlast
    have h := addLayerNodes_invariant i l st hwf hlast
    exact ih (i + 1) (addLayerNodes i l st) h.1 h.2

theorem buildGraphAux_entry0 : ∀ (ls : List DenseLayer) (i : Nat)
    (st : List GNode × Nat), 0 < st.1.length →
    (buildGraphAux i ls st).1.getD 0 ⟨"", "", []⟩ =
      st.1.getD 0 ⟨"", "", []⟩ := by
  intro ls
  induction ls with
  | nil => intro i st _; rfl
  | cons l t ih =>
    intro i st hpos
    have hlen : 0 < (addLayerNodes i l st).1.length := by
      unfold addLayerNodes
      rw [List.length_append]
      omega
    rw [buildGraphAux, ih (i + 1) (addLayerNodes i l st) hlen]
    unfold addLayerNodes
    exact getD_append_left _ _ _ _ hpos

/-- Claim C5: exporting a hybridized model produces exactly two artifacts:
the binary parameter file `my_mlp-0000.params` (holding the model's
parameters) and the JSON file `my_mlp-symbol.json` whose content is a
top-level "nodes" array of operation nodes, each carrying an op, a name and
an inputs list referring to other (strictly earlier) nodes; the first node
is the "null" op named "data", as shown by the head of the exported file. -/
theorem export_artifacts_spec (n : Net) :
    (exportNet n "my_mlp").1.1 = "my_mlp-0000.params" ∧
    (exportNet n "my_mlp").2.1 = "my_mlp-symbol.json" ∧
    (exportNet n "my_mlp").2.2 = symbolGraph n.layers ∧
    (symbolGraph n.layers).getD 0 ⟨"", "", []⟩ = ⟨"null", "data", []⟩ ∧
    graphWF (symbolGraph n.layers) := by
  refine ⟨rfl, rfl, rfl, ?_, ?_⟩
  · unfold symbolGraph
    rw [buildGraphAux_entry0 n.layers 0 ([⟨"null", "data", []⟩], 0)
      (by decide)]
    rfl
  · unfold symbolGraph
    refine (buildGraphAux_invariant n.layers 0 ([⟨"null", "data", []⟩], 0)
      ?_ (by decide)).1
    intro j hj i hi
    have hj1 : j < 1 := by simpa using hj
    have hj0 : j = 0 := by omega
    subst hj0
    simp [getD_cons_zero] at hi

/-! Restrictions after compilation (claim C7). -/

/-- A value flowing through `hybrid_forward`: a concrete ndarray in eager
mode, or a symbolic placeholder once the model has been hybridized (the data
flowing through the network is converted to symbol type as part of the
compilation process). -/
inductive FValue where
  | nd : List Int → FValue
  | sym : Sym → FValue

/-- Modelled from the spec: `asnumpy` materialises a concrete ndarray; the
function is not supported in the symbol module, so calling it on a symbolic
value fails. -/
def asnumpy : FValue → Option (List Int)
  | .nd v => some v
  | .sym _ => none

/-- The value bound to `x` inside `hybrid_forward`: the concrete input in
eager mode and the symbolic `data` placeholder once the net is hybridized. -/
def hybridInput (n : Net) (x : List Int) : FValue :=
  if n.hybridized then .sym Sym.data else .nd x

/-- Claim C7: once a model has been hybridized, the values flowing through
`hybrid_forward` are symbolic and invoking `asnumpy` on them fails (while it
succeeds on eager ndarray values); and the in-place updates `a += b` and
`a[:] = a + b` must be rewritten as the plain assignment `a = a + b`, which
is a valid replacement because it leaves the variable `a` holding the very
same value — only the allocation it occupies differs. -/
theorem symbol_restrictions_spec (n : Net) (x : List Int) (s : PyState)
    (a : String) (v : Matrix) (addr : Addr)
    (hhy : n.hybridized = true)
    (ha : idOf s a = some addr) (hb : addr < s.heap.length) :
    asnumpy (hybridInput n x) = none ∧
    asnumpy (FValue.nd x) = some x ∧
    valueOf (assignInPlace s a v) a = v ∧
    valueOf (assign s a v) a = v := by
  refine ⟨?_, rfl, ?_, ?_⟩
  · simp [hybridInput, hhy, asnumpy]
  · show (match idOf (assignInPlace s a v) a with
      | some q => (assignInPlace s a v).heap.getD q []
      | none => []) = v
    have henv : idOf (assignInPlace s a v) a = idOf s a := rfl
    rw [henv, ha]
    show (match idOf s a with
      | some q => s.heap.set q v
      | none => s.heap).getD addr [] = v
    rw [ha]
    exact getD_set_self s.heap addr v [] hb
  · show (match idOf (assign s a v) a with
      | some q => (assign s a v).heap.getD q []
      | none => []) = v
    have henv : idOf (assign s a v) a = some s.heap.length := by
      unfold idOf assign
      exact lookupVar_envSet_self s.env a s.heap.length
    rw [henv]
    show (s.heap ++ [v]).getD s.heap.length [] = v
    rw [getD_append_right _ _ _ _ (Nat.le_refl _), Nat.sub_self]
    rfl

/-- The one-variable interpreter state used to witness claim C7. -/
def symState : PyState := { heap := [[[1, 2]]], env := [("a", 0)] }

/-- Claim C7 witness: a hybridized net's `hybrid_forward` value rejects
`asnumpy`, the eager value accepts it, and on the concrete one-variable
state the in-place update and its rewritten plain-assignment form leave the
variable with the same value. -/
theorem symbol_restrictions_spec_witness :
    asnumpy (hybridInput (mkNet []).hybridize [1, 2]) = none ∧
    asnumpy (FValue.nd [1, 2]) = some [1, 2] ∧
    valueOf (assignInPlace symState "a" [[5, 6]]) "a" = [[5, 6]] ∧
    valueOf (assign symState "a" [[5, 6]]) "a" = [[5, 6]] :=
  symbol_restrictions_spec (mkNet []).hybridize [1, 2] symState "a"
    [[5, 6]] 0 (by rfl) (by rfl) (by decide)

end D2L
